import Mathlib

/-!
Shallow embedding of `tslist.go` (package tslist), a thread-safe doubly linked
list with lazy marking and eager removal.

The Go pointer graph is modelled as an arena: every `Element` ever allocated by
`Append` lives at a stable index (a `Nat` handle) in `TsList.arena`, and the Go
pointer fields `head`, `tail`, `next`, `prev` become `Option Nat` handles.
Locks (`sync.RWMutex`) only serialize access; the claims under study are about
the sequential semantics, so the lock fields are not modelled.  The payload
`interface{}` is modelled as `Nat`.  The Go `int` field `size` is modelled as
`Int` because the code can drive it negative.  Go loops (`Next`'s skip loop,
`RemoveMarked`'s sweep) are modelled with an explicit fuel parameter; fuel
exhaustion (which corresponds to nontermination on a cyclic chain, impossible
in reachable states) yields `none` / the current state.
-/

namespace Tslist

/-- Element mirrors Go `type Element struct` from tslist.go: payload `value`,
the lazy mark `remove`, the eager-removal flag `removed`, and the chain links
`next`/`prev`.  The `m sync.RWMutex` lock and the parent pointer `l *List` are
not represented (there is a single list, and locking is concurrency-only). -/
structure Element where
  value : Nat
  remove : Bool
  removed : Bool
  next : Option Nat
  prev : Option Nat
deriving DecidableEq, Repr

instance : Inhabited Element := ⟨⟨0, false, false, none, none⟩⟩

/-- TsList mirrors Go `type List struct`: `head`, `tail` and the cached `size`,
plus the arena of every element ever allocated (Go heap).  The lock `m` is not
modelled. -/
structure TsList where
  head : Option Nat
  tail : Option Nat
  size : Int
  arena : List Element
deriving DecidableEq, Repr

/-- Dereference a handle: read the element stored at index `i` of the arena. -/
def getE (s : TsList) (i : Nat) : Element :=
  s.arena.getD i default

/-- Write the element at index `i` of the arena (no-op when out of bounds,
which never happens for genuine handles). -/
def setE (s : TsList) (i : Nat) (e : Element) : TsList :=
  { s with arena := s.arena.set i e }

/-- New mirrors Go `func New() *List`: the zero-valued list. -/
def New : TsList :=
  { head := none, tail := none, size := 0, arena := [] }

/-- Len mirrors Go `func (l *List) Len() int`: returns the cached `size`. -/
def Len (s : TsList) : Int :=
  s.size

/-- Head mirrors Go `func (l *List) Head() *Element`: returns `l.head`. -/
def Head (s : TsList) : Option Nat :=
  s.head

/-- Append mirrors Go `func (l *List) Append(v interface{}) *Element`.
A fresh element is allocated at index `s.arena.length`.  When the list is
empty the code sets `head` and `tail` and returns WITHOUT incrementing
`size` (the counting defect is reproduced faithfully).  Otherwise it sets
the old tail's `next`, the new element's `prev`, moves `tail` and
increments `size`.  The `s.tail = none` sub-branch is a nil-pointer
dereference in Go (`l.tail.m.Lock()` with `l.tail == nil`); it is
unreachable whenever the head/tail invariant holds and is modelled as
leaving the state unchanged. -/
def Append (s : TsList) (v : Nat) : TsList × Nat :=
  let i := s.arena.length
  let e : Element := { value := v, remove := false, removed := false, next := none, prev := none }
  if s.head = none then
    ({ s with arena := s.arena ++ [e], head := some i, tail := some i }, i)
  else
    match s.tail with
    | none => (s, i)
    | some t =>
      let s1 : TsList := { s with arena := s.arena ++ [e] }
      let s2 := setE s1 t { getE s1 t with next := some i }
      let s3 := setE s2 i { getE s2 i with prev := some t }
      ({ s3 with tail := some i, size := s.size + 1 }, i)

/-- PushBack mirrors Go `func (l *List) PushBack(v interface{}) *Element`,
an alias of Append. -/
def PushBack (s : TsList) (v : Nat) : TsList × Nat :=
  Append s v

/-- Value mirrors Go `func (e *Element) Value() interface{}`. -/
def Value (s : TsList) (i : Nat) : Nat :=
  (getE s i).value

/-- ToRemove mirrors Go `func (e *Element) ToRemove() bool`: reads the lazy
mark `remove`. -/
def ToRemove (s : TsList) (i : Nat) : Bool :=
  (getE s i).remove

/-- RemoveMark mirrors Go `func (e *Element) RemoveMark()`: sets the lazy
mark `remove` on element `i`. -/
def RemoveMark (s : TsList) (i : Nat) : TsList :=
  setE s i { getE s i with remove := true }

/-- skipMarked models the loop inside Go `Next`:
`for next != nil && next.ToRemove() { next = next.next }`.
Fuel bounds the number of visited nodes; exhaustion (nontermination on a
cyclic chain of marked elements, impossible in reachable states) yields
`none`. -/
def skipMarked (s : TsList) : Option Nat → Nat → Option Nat
  | none, _ => none
  | some _, 0 => none
  | some j, fuel + 1 =>
    if ToRemove s j then skipMarked s (getE s j).next fuel else some j

/-- Next mirrors Go `func (e *Element) Next() *Element`: starts from
`e.next` and skips every element whose lazy mark is set. -/
def Next (s : TsList) (i : Nat) : Option Nat :=
  skipMarked s (getE s i).next s.arena.length

/-- Remove mirrors Go `func (e *Element) Remove()`.  It returns unchanged if
`e.removed` is already set; otherwise it sets `removed`, decrements `size`,
and patches links by position exactly as the four branches of the source:
sole element, head, tail, internal. -/
def Remove (s : TsList) (i : Nat) : TsList :=
  if (getE s i).removed then s
  else
    let p := (getE s i).prev
    let n := (getE s i).next
    let s2 : TsList := { setE s i { getE s i with removed := true } with size := s.size - 1 }
    match p, n with
    | none, none => { s2 with head := none, tail := none }
    | none, some nn => { setE s2 nn { getE s2 nn with prev := none } with head := some nn }
    | some pp, none => { setE s2 pp { getE s2 pp with next := none } with tail := some pp }
    | some pp, some nn =>
      let s3 := setE s2 pp { getE s2 pp with next := some nn }
      setE s3 nn { getE s3 nn with prev := some pp }

/-- sweepStep models the inner loop of Go `RemoveMarked`:
`for e != nil { if e.ToRemove() { e.Remove(); done = false }; e = e.Next() }`.
Fuel bounds the number of visited nodes. -/
def sweepStep (s : TsList) (done : Bool) : Option Nat → Nat → TsList × Bool
  | none, _ => (s, done)
  | some _, 0 => (s, done)
  | some i, fuel + 1 =>
    if ToRemove s i then
      let s' := Remove s i
      sweepStep s' false (Next s' i) fuel
    else
      sweepStep s done (Next s i) fuel

/-- removeMarkedLoop models the outer loop of Go `RemoveMarked`:
`for done := true; !done; done = true { ... }`.  The guard `!done` is
checked before each body; the post statement sets `done = true`. -/
def removeMarkedLoop (s : TsList) (done : Bool) : Nat → TsList
  | 0 => s
  | fuel + 1 =>
    if done then s
    else
      let r := sweepStep s done (Head s) s.arena.length
      removeMarkedLoop r.1 true fuel

/-- RemoveMarked mirrors Go `func (l *List) RemoveMarked()`: the outer loop
is entered with `done := true`, so its guard `!done` is false at once. -/
def RemoveMarked (s : TsList) : TsList :=
  removeMarkedLoop s true (s.arena.length + 1)

/-- traverseFrom collects the handles yielded by the public traversal idiom:
visit the current handle, move on with `Next`, stop at `none`. -/
def traverseFrom (s : TsList) : Option Nat → Nat → List Nat
  | none, _ => []
  | some _, 0 => []
  | some i, fuel + 1 => i :: traverseFrom s (Next s i) fuel

/-- traversal is a full traversal: start at `Head`, follow `Next`. -/
def traversal (s : TsList) : List Nat :=
  traverseFrom s (Head s) s.arena.length

/-- seg s l c p c' p' states that walking the handles `l` starting from the
pointer `c`, with `p` the handle of the element just before the walk, follows
the `next` links of non-removed in-bounds elements whose `prev` links mirror
the walk, and ends at pointer `c'` with `p'` the handle of the last element
walked. -/
def seg (s : TsList) : List Nat → Option Nat → Option Nat → Option Nat → Option Nat → Prop
  | [], c, p, c', p' => c' = c ∧ p' = p
  | i :: rest, c, p, c', p' =>
    c = some i ∧ i < s.arena.length ∧ (getE s i).prev = p ∧
      (getE s i).removed = false ∧ seg s rest (getE s i).next (some i) c' p'

/-- WF is the structural well-formedness of a list state: some duplicate-free
walk `l` runs from `head` (with nothing before it) to a `none` pointer whose
last element is `tail`, and every in-bounds element that is not removed occurs
on the walk. -/
def WF (s : TsList) : Prop :=
  ∃ l : List Nat, seg s l s.head none none s.tail ∧ l.Nodup ∧
    ∀ i, i < s.arena.length → (getE s i).removed = false → i ∈ l

/-- Reachable contains exactly the states produced from `New` by the public
operations; element handles are the arena indices handed out by `Append`, so
they are always in bounds. -/
inductive Reachable : TsList → Prop
  | new : Reachable New
  | append (s : TsList) (v : Nat) : Reachable s → Reachable (Append s v).1
  | removeMark (s : TsList) (i : Nat) : Reachable s → i < s.arena.length →
      Reachable (RemoveMark s i)
  | remove (s : TsList) (i : Nat) : Reachable s → i < s.arena.length →
      Reachable (Remove s i)
  | removeMarked (s : TsList) : Reachable s → Reachable (RemoveMarked s)

/-- appendN n is the state after n successive Append calls on a fresh list. -/
def appendN : Nat → TsList
  | 0 => New
  | n + 1 => (Append (appendN n) n).1

/-- exC2 is a two-element list (values 1 and 2 at handles 0 and 1) whose head
element is marked for removal. -/
def exC2 : TsList :=
  RemoveMark (Append (Append New 1).1 2).1 0

/-- exC3 is a one-element list whose sole element (the head) is marked for
removal but not removed. -/
def exC3 : TsList :=
  RemoveMark (Append New 7).1 0

/-- exC4 is the state after appending a single value to a fresh list and then
eagerly removing that sole element. -/
def exC4 : TsList :=
  Remove (Append New 5).1 0

/-- ex3 is a plain three-element list (values 10, 20, 30 at handles 0, 1, 2),
used as a concrete witness input. -/
def ex3 : TsList :=
  (Append (Append (Append New 10).1 20).1 30).1

/-! ## Basic lemmas about the arena -/

theorem length_setE (s : TsList) (i : Nat) (e : Element) :
    (setE s i e).arena.length = s.arena.length := by
  simp [setE]

theorem head_setE (s : TsList) (i : Nat) (e : Element) : (setE s i e).head = s.head := rfl

theorem tail_setE (s : TsList) (i : Nat) (e : Element) : (setE s i e).tail = s.tail := rfl

theorem size_setE (s : TsList) (i : Nat) (e : Element) : (setE s i e).size = s.size := rfl

theorem setE_oob (s : TsList) (i : Nat) (e : Element) (h : s.arena.length ≤ i) :
    setE s i e = s := by
  simp [setE, List.set_eq_of_length_le h]

theorem getD_set_eq {α : Type} [Inhabited α] (l : List α) (i j : Nat) (e : α) :
    (l.set i e).getD j default = if i = j ∧ i < l.length then e else l.getD j default := by
  by_cases hij : i = j
  · subst hij
    by_cases hi : i < l.length
    · simp [List.getD_eq_getElem?_getD, List.getElem?_set_self hi, hi]
    · simp [List.set_eq_of_length_le (le_of_not_lt hi), hi]
  · simp [List.getD_eq_getElem?_getD, List.getElem?_set_ne hij, hij]

theorem getE_setE (s : TsList) (i j : Nat) (e : Element) :
    getE (setE s i e) j = if i = j ∧ i < s.arena.length then e else getE s j := by
  by_cases hij : i = j
  · subst hij
    by_cases hi : i < s.arena.length
    · simp [getE, setE, List.getD_eq_getElem?_getD, List.getElem?_set_self hi, hi]
    · simp [setE_oob s i e (le_of_not_lt hi), hi]
  · simp [getE, setE, List.getD_eq_getElem?_getD, List.getElem?_set_ne hij, hij]

theorem getE_setE_self (s : TsList) (i : Nat) (e : Element) (h : i < s.arena.length) :
    getE (setE s i e) i = e := by
  simp [getE_setE, h]

theorem getE_setE_ne (s : TsList) (i j : Nat) (e : Element) (h : i ≠ j) :
    getE (setE s i e) j = getE s j := by
  simp [getE_setE, h]

@[simp] theorem getE_upd_head (s : TsList) (x : Option Nat) (i : Nat) :
    getE { s with head := x } i = getE s i := rfl

@[simp] theorem getE_upd_tail (s : TsList) (x : Option Nat) (i : Nat) :
    getE { s with tail := x } i = getE s i := rfl

@[simp] theorem getE_upd_size (s : TsList) (z : Int) (i : Nat) :
    getE { s with size := z } i = getE s i := rfl

@[simp] theorem length_upd_head (s : TsList) (x : Option Nat) :
    ({ s with head := x }).arena.length = s.arena.length := rfl

@[simp] theorem length_upd_tail (s : TsList) (x : Option Nat) :
    ({ s with tail := x }).arena.length = s.arena.length := rfl

@[simp] theorem length_upd_size (s : TsList) (z : Int) :
    ({ s with size := z }).arena.length = s.arena.length := rfl

@[simp] theorem length_setE_simp (s : TsList) (i : Nat) (e : Element) :
    (setE s i e).arena.length = s.arena.length :=
  length_setE s i e

@[simp] theorem getE_mk (x y : Option Nat) (z : Int) (a : List Element) (i : Nat) :
    getE { head := x, tail := y, size := z, arena := a } i = a.getD i default := rfl

@[simp] theorem arena_setE (s : TsList) (i : Nat) (e : Element) :
    (setE s i e).arena = s.arena.set i e := rfl

/-! ## Lemmas about the inert sweep -/

theorem removeMarkedLoop_of_done (s : TsList) : ∀ fuel, removeMarkedLoop s true fuel = s
  | 0 => rfl
  | fuel + 1 => by simp [removeMarkedLoop]

theorem removeMarked_eq_self (s : TsList) : RemoveMarked s = s :=
  removeMarkedLoop_of_done s _

/-! ## Facts about repeated appends -/

theorem appendN_facts : ∀ n : Nat,
    (appendN (n + 1)).head = some 0 ∧ (appendN (n + 1)).tail = some n ∧
      (appendN (n + 1)).arena.length = n + 1 ∧ (appendN (n + 1)).size = (n : Int) := by
  intro n
  induction n with
  | zero => refine ⟨rfl, rfl, rfl, rfl⟩
  | succ n ih =>
    obtain ⟨h1, h2, h3, h4⟩ := ih
    have hdef : appendN (n + 1 + 1) = (Append (appendN (n + 1)) (n + 1)).1 := rfl
    rw [hdef]
    generalize hs : appendN (n + 1) = s at h1 h2 h3 h4
    refine ⟨?_, ?_, ?_, ?_⟩ <;>
      simp [Append, h1, h2, h3, h4, setE]

/-! ## Claim theorems -/

/-- C1: the claim says that after N successive Append calls on a fresh list
(N ≥ 1) Len() returns exactly N.  The code undercounts by one: the Append
that fills an empty list returns before `l.size++`, so after n+1 appends
Len() is n.  This theorem evaluates the code on that family of inputs. -/
theorem C1_len_undercounts (n : Nat) : Len (appendN (n + 1)) = (n : Int) :=
  (appendN_facts n).2.2.2

/-- C2: the claim says that running RemoveMarked() after marking a subset S
removes every marked element and drops Len() by |S|.  In the code the sweep
loop `for done := true; !done; done = true` has a guard that is false on
entry, so RemoveMarked() never executes its body: on a two-element list with
the head marked, the state is completely unchanged, Len() still reports 1
and the marked, unremoved element is still linked. -/
theorem C2_sweep_is_inert :
    RemoveMarked exC2 = exC2 ∧ Len exC2 = 1 ∧ ToRemove exC2 0 = true ∧
      (getE exC2 0).removed = false ∧ Head exC2 = some 0 := by
  refine ⟨removeMarkedLoop_of_done exC2 _, by decide, by decide, by decide, by decide⟩

/-- C4: the claim says removing the sole element of a one-element list leaves
Head() absent and Len() = 0.  Head() is indeed absent, but Len() returns -1:
the single Append never incremented `size` (it was still 0) and Remove()
decrements it.  This theorem evaluates the code at that failing input. -/
theorem C4_remove_sole :
    Head exC4 = none ∧ exC4.tail = none ∧ Len exC4 = -1 := by decide

/-- C9: a single call to RemoveMarked() leaves the list entirely unchanged,
whatever is marked: the outer loop's guard `!done` is false on entry (done
is initialized to true), so the sweep body never runs. -/
theorem C9_removeMarked_is_noop (s : TsList) : RemoveMarked s = s :=
  removeMarkedLoop_of_done s _

theorem removeMark_idem (s : TsList) (i : Nat) :
    RemoveMark (RemoveMark s i) i = RemoveMark s i := by
  by_cases h : i < s.arena.length
  · simp only [RemoveMark]
    rw [getE_setE_self s i _ h]
    simp [setE, List.set_set]
  · have h1 : RemoveMark s i = s := setE_oob s i _ (le_of_not_lt h)
    simp [h1]

/-- C8: RemoveMark() on element i sets only that element's lazy-removal flag:
the list's head, tail and size are untouched, the element's value, removed,
next and prev fields are untouched, every other element is untouched, the
flag is set (for a real handle, i.e. an in-bounds index, which is what
Append hands out), and marking again changes nothing. -/
theorem C8_removeMark_frame (s : TsList) (i : Nat) :
    (RemoveMark s i).head = s.head ∧ (RemoveMark s i).tail = s.tail ∧
      (RemoveMark s i).size = s.size ∧
      (getE (RemoveMark s i) i).value = (getE s i).value ∧
      (getE (RemoveMark s i) i).removed = (getE s i).removed ∧
      (getE (RemoveMark s i) i).next = (getE s i).next ∧
      (getE (RemoveMark s i) i).prev = (getE s i).prev ∧
      (∀ j, j ≠ i → getE (RemoveMark s i) j = getE s j) ∧
      (i < s.arena.length → ToRemove (RemoveMark s i) i = true) ∧
      RemoveMark (RemoveMark s i) i = RemoveMark s i := by
  have hfields : (getE (RemoveMark s i) i).value = (getE s i).value ∧
      (getE (RemoveMark s i) i).removed = (getE s i).removed ∧
      (getE (RemoveMark s i) i).next = (getE s i).next ∧
      (getE (RemoveMark s i) i).prev = (getE s i).prev := by
    by_cases h : i < s.arena.length
    · rw [RemoveMark, getE_setE_self s i _ h]
      exact ⟨rfl, rfl, rfl, rfl⟩
    · rw [RemoveMark, setE_oob s i _ (le_of_not_lt h)]
      exact ⟨rfl, rfl, rfl, rfl⟩
  refine ⟨rfl, rfl, rfl, hfields.1, hfields.2.1, hfields.2.2.1, hfields.2.2.2,
    fun j hj => getE_setE_ne s i j _ (Ne.symm hj),
    fun h => by rw [ToRemove, RemoveMark, getE_setE_self s i _ h],
    removeMark_idem s i⟩

/-- C8 witness: the frame theorem instantiated on the three-element list ex3
at handle 1, with every hypothesis discharged concretely. -/
theorem C8_removeMark_frame_witness :
    (RemoveMark ex3 1).head = ex3.head ∧ getE (RemoveMark ex3 1) 0 = getE ex3 0 ∧
      ToRemove (RemoveMark ex3 1) 1 = true ∧
      RemoveMark (RemoveMark ex3 1) 1 = RemoveMark ex3 1 :=
  ⟨(C8_removeMark_frame ex3 1).1,
   (C8_removeMark_frame ex3 1).2.2.2.2.2.2.2.1 0 (by decide),
   (C8_removeMark_frame ex3 1).2.2.2.2.2.2.2.2.1 (by decide),
   (C8_removeMark_frame ex3 1).2.2.2.2.2.2.2.2.2⟩

theorem remove_of_removed (s : TsList) (i : Nat) (h : (getE s i).removed = true) :
    Remove s i = s := by
  simp [Remove, h]

set_option maxRecDepth 4096 in
theorem removed_after_remove (s : TsList) (i : Nat) (h : i < s.arena.length) :
    (getE (Remove s i) i).removed = true := by
  by_cases hr : (getE s i).removed
  · rw [remove_of_removed s i hr]; exact hr
  · rw [Remove]
    simp only [hr, Bool.false_eq_true, if_false]
    rcases hp : (getE s i).prev with _ | pp <;> rcases hn : (getE s i).next with _ | nn <;>
      simp only [hp, hn]
    · simp [getE, arena_setE, getD_set_eq, h]
    · by_cases hni : nn = i
      · subst hni; simp [getE, arena_setE, getD_set_eq, h]
      · simp [getE, arena_setE, getD_set_eq, h, hni]
    · by_cases hpi : pp = i
      · subst hpi; simp [getE, arena_setE, getD_set_eq, h]
      · simp [getE, arena_setE, getD_set_eq, h, hpi]
    · by_cases hni : nn = i <;> by_cases hpi : pp = i
      · subst hni; subst hpi; simp [getE, arena_setE, getD_set_eq, h]
      · subst hni; simp [getE, arena_setE, getD_set_eq, h, hpi]
      · subst hpi; simp [getE, arena_setE, getD_set_eq, h, hni]
      · simp [getE, arena_setE, getD_set_eq, h, hni, hpi]

/-- C6: calling Remove() twice on the same handle is the same as calling it
once: the first call (whether it unlinks or was itself a no-op) leaves the
element's `removed` flag true, and Remove() returns immediately when
`removed` is already set, so the whole state is unchanged. -/
theorem C6_remove_idempotent (s : TsList) (i : Nat) (h : i < s.arena.length) :
    Remove (Remove s i) i = Remove s i :=
  remove_of_removed _ _ (removed_after_remove s i h)

/-- C6 witness: double removal of the middle element of the three-element
list ex3 equals single removal. -/
theorem C6_remove_idempotent_witness :
    Remove (Remove ex3 1) 1 = Remove ex3 1 :=
  C6_remove_idempotent ex3 1 (by decide)

/-- C10: Remove() never clears the removed element's own `next` and `prev`
links (it only patches the neighbors' links and the list's head/tail), so a
later Next() on the removed handle starts from the successor the element had
at the time of removal, skipping marked elements as usual.  The hypotheses
rule out self-loop links, which no element of a real list ever has. -/
theorem C10_remove_keeps_links (s : TsList) (i : Nat)
    (hn : (getE s i).next ≠ some i) (hp : (getE s i).prev ≠ some i) :
    (getE (Remove s i) i).next = (getE s i).next ∧
      (getE (Remove s i) i).prev = (getE s i).prev ∧
      Next (Remove s i) i =
        skipMarked (Remove s i) ((getE s i).next) ((Remove s i).arena.length) := by
  have hlinks : (getE (Remove s i) i).next = (getE s i).next ∧
      (getE (Remove s i) i).prev = (getE s i).prev := by
    by_cases hr : (getE s i).removed
    · rw [remove_of_removed s i hr]; exact ⟨rfl, rfl⟩
    · by_cases h : i < s.arena.length
      · rw [Remove]
        simp only [hr, Bool.false_eq_true, if_false]
        rcases hpv : (getE s i).prev with _ | pp <;> rcases hnv : (getE s i).next with _ | nn
        · simp [getE, arena_setE, getD_set_eq, h, hpv, hnv]
        · have hni : nn ≠ i := fun he => hn (by rw [hnv, he])
          simp [getE, arena_setE, getD_set_eq, h, hni, hpv, hnv]
        · have hpi : pp ≠ i := fun he => hp (by rw [hpv, he])
          simp [getE, arena_setE, getD_set_eq, h, hpi, hpv, hnv]
        · have hni : nn ≠ i := fun he => hn (by rw [hnv, he])
          have hpi : pp ≠ i := fun he => hp (by rw [hpv, he])
          simp [getE, arena_setE, getD_set_eq, h, hni, hpi, hpv, hnv]
      · have hoob : s.arena.length ≤ i := le_of_not_lt h
        have hd : getE s i = default := by
          simp [getE, List.getD_eq_getElem?_getD, List.getElem?_eq_none hoob]
        rw [Remove]
        simp only [hr, Bool.false_eq_true, if_false, hd]
        simp [getE, arena_setE, List.set_eq_of_length_le hoob, hd,
          List.getD_eq_getElem?_getD, List.getElem?_eq_none hoob]
  exact ⟨hlinks.1, hlinks.2, by rw [Next, hlinks.1]⟩

/-- C10 witness: removing the middle element of the three-element list ex3
keeps that element's own links, and Next() on the removed handle yields the
surviving successor. -/
theorem C10_remove_keeps_links_witness :
    (getE (Remove ex3 1) 1).next = (getE ex3 1).next ∧
      (getE (Remove ex3 1) 1).prev = (getE ex3 1).prev ∧
      Next (Remove ex3 1) 1 =
        skipMarked (Remove ex3 1) ((getE ex3 1).next) ((Remove ex3 1).arena.length) :=
  C10_remove_keeps_links ex3 1 (by decide) (by decide)

/-- C5: positional removal on a live element.  Removing the current head
(no predecessor, successor n) makes n the new head and clears n's prev;
removing the current tail (predecessor p, no successor) makes p the new tail
and clears p's next; removing an internal element splices p and n together.
The side conditions (handles in bounds and pairwise distinct) hold for every
element of a real list. -/
theorem C5_positional_removal (s : TsList) (i p n : Nat)
    (hlive : (getE s i).removed = false) :
    (s.head = some i → (getE s i).prev = none → (getE s i).next = some n →
        n < s.arena.length → n ≠ i →
        (Remove s i).head = some n ∧ (getE (Remove s i) n).prev = none) ∧
      (s.tail = some i → (getE s i).prev = some p → (getE s i).next = none →
          p < s.arena.length → p ≠ i →
        (Remove s i).tail = some p ∧ (getE (Remove s i) p).next = none) ∧
      ((getE s i).prev = some p → (getE s i).next = some n →
          p < s.arena.length → n < s.arena.length → p ≠ i → n ≠ i → p ≠ n →
        (getE (Remove s i) p).next = some n ∧ (getE (Remove s i) n).prev = some p) := by
  refine ⟨?_, ?_, ?_⟩
  · intro _ hpv hnv hbn hni
    rw [Remove]
    simp only [hlive, Bool.false_eq_true, if_false, hpv, hnv]
    simp [getE, arena_setE, getD_set_eq, hbn, hni]
  · intro _ hpv hnv hbp hpi
    rw [Remove]
    simp only [hlive, Bool.false_eq_true, if_false, hpv, hnv]
    simp [getE, arena_setE, getD_set_eq, hbp, hpi]
  · intro hpv hnv hbp hbn hpi hni hpn
    rw [Remove]
    simp only [hlive, Bool.false_eq_true, if_false, hpv, hnv]
    constructor
    · simp [getE, arena_setE, getD_set_eq, hbp, hbn, hpi, hni, hpn, Ne.symm hpn]
    · simp [getE, arena_setE, getD_set_eq, hbp, hbn, hpi, hni, hpn]
  
/-- C5 witness: on the three-element list ex3, removing the head promotes
handle 1 and clears its prev, removing the tail promotes handle 1 and clears
its next, and removing the middle element splices handles 0 and 2. -/
theorem C5_positional_removal_witness :
    ((Remove ex3 0).head = some 1 ∧ (getE (Remove ex3 0) 1).prev = none) ∧
      ((Remove ex3 2).tail = some 1 ∧ (getE (Remove ex3 2) 1).next = none) ∧
      ((getE (Remove ex3 1) 0).next = some 2 ∧ (getE (Remove ex3 1) 2).prev = some 0) :=
  ⟨(C5_positional_removal ex3 0 0 1 (by decide)).1 (by decide) (by decide) (by decide)
      (by decide) (by decide),
   (C5_positional_removal ex3 2 1 0 (by decide)).2.1 (by decide) (by decide) (by decide)
      (by decide) (by decide),
   (C5_positional_removal ex3 1 0 2 (by decide)).2.2 (by decide) (by decide) (by decide)
      (by decide) (by decide) (by decide) (by decide)⟩

theorem skipMarked_unmarked (s : TsList) :
    ∀ fuel o j, skipMarked s o fuel = some j → ToRemove s j = false := by
  intro fuel
  induction fuel with
  | zero =>
    intro o j hskip
    cases o <;> simp [skipMarked] at hskip
  | succ m ih =>
    intro o j hskip
    cases o with
    | none => simp [skipMarked] at hskip
    | some k =>
      by_cases hk : ToRemove s k
      · exact ih _ _ (by simpa [skipMarked, hk] using hskip)
      · have : k = j := by simpa [skipMarked, hk] using hskip
        subst this
        simpa using hk

theorem mem_traverseFrom (s : TsList) (x : Nat) :
    ∀ fuel o, x ∈ traverseFrom s o fuel → o = some x ∨ ToRemove s x = false := by
  intro fuel
  induction fuel with
  | zero =>
    intro o hmem
    cases o <;> simp [traverseFrom] at hmem
  | succ m ih =>
    intro o hmem
    cases o with
    | none => simp [traverseFrom] at hmem
    | some k =>
      rcases (by simpa [traverseFrom] using hmem : x = k ∨ x ∈ traverseFrom s (Next s k) m) with
        h | h
      · exact Or.inl (by rw [h])
      · rcases ih _ h with h2 | h2
        · exact Or.inr (skipMarked_unmarked s _ _ _ h2)
        · exact Or.inr h2

/-- C3 counterexample: the claim says a marked-but-not-removed element is
never yielded by a traversal from Head() following Next().  But Head() does
not skip marked elements: on a one-element list whose sole element (the
head, handle 0) is marked and not removed, the traversal yields it. -/
theorem C3_counterexample :
    0 ∈ traversal exC3 ∧ ToRemove exC3 0 = true ∧ (getE exC3 0).removed = false := by
  decide

/-- C3 amended: a marked-but-not-removed element X is never yielded by a
traversal from Head() following Next() unless X is the current head itself
(Next() always skips marked elements; only Head() does not). -/
theorem C3_traversal_skips_marked (s : TsList) (x : Nat)
    (hmark : ToRemove s x = true) (hnotrem : (getE s x).removed = false)
    (hnothead : Head s ≠ some x) : x ∉ traversal s := by
  intro hmem
  rcases mem_traverseFrom s x _ _ hmem with h | h
  · exact hnothead h
  · rw [hmark] at h
    cases h

/-- C3 amended witness: in a two-element list with the second element
(handle 1) marked, handle 1 does not appear in the traversal. -/
theorem C3_traversal_skips_marked_witness :
    1 ∉ traversal (RemoveMark (Append (Append New 1).1 2).1 1) :=
  C3_traversal_skips_marked _ 1 (by decide) (by decide) (by decide)

/-! ## Arena append lemmas -/

theorem getD_append_lt {α : Type} [Inhabited α] (l : List α) (e : α) (j : Nat)
    (h : j < l.length) : (l ++ [e]).getD j default = l.getD j default := by
  simp [List.getD_eq_getElem?_getD, List.getElem?_append_left h]

theorem getD_append_len {α : Type} [Inhabited α] (l : List α) (e : α) :
    (l ++ [e]).getD l.length default = e := by
  simp [List.getD_eq_getElem?_getD, List.getElem?_concat_length]

theorem set_append_left {α : Type} (l : List α) (e : α) (j : Nat) (x : α)
    (h : j < l.length) : (l ++ [e]).set j x = l.set j x ++ [e] := by
  simp [List.set_append, h]

theorem set_append_len {α : Type} (l : List α) (e x : α) :
    (l ++ [e]).set l.length x = l ++ [x] := by
  simp [List.set_append]

/-! ## Explicit forms of Remove and Append by position -/

theorem remove_eq_sole (s : TsList) (i : Nat) (hr : (getE s i).removed = false)
    (hp : (getE s i).prev = none) (hn : (getE s i).next = none) :
    Remove s i =
      { head := none, tail := none, size := s.size - 1,
        arena := s.arena.set i { getE s i with removed := true } } := by
  rw [Remove]
  simp only [hr, Bool.false_eq_true, if_false, hp, hn]
  rfl

theorem remove_eq_head (s : TsList) (i nn : Nat) (hr : (getE s i).removed = false)
    (hp : (getE s i).prev = none) (hn : (getE s i).next = some nn) :
    Remove s i =
      { head := some nn, tail := s.tail, size := s.size - 1,
        arena := (s.arena.set i { getE s i with removed := true }).set nn
          { (s.arena.set i { getE s i with removed := true }).getD nn default with
              prev := none } } := by
  rw [Remove]
  simp only [hr, Bool.false_eq_true, if_false, hp, hn]
  rfl

theorem remove_eq_tail (s : TsList) (i pp : Nat) (hr : (getE s i).removed = false)
    (hp : (getE s i).prev = some pp) (hn : (getE s i).next = none) :
    Remove s i =
      { head := s.head, tail := some pp, size := s.size - 1,
        arena := (s.arena.set i { getE s i with removed := true }).set pp
          { (s.arena.set i { getE s i with removed := true }).getD pp default with
              next := none } } := by
  rw [Remove]
  simp only [hr, Bool.false_eq_true, if_false, hp, hn]
  rfl

theorem remove_eq_internal (s : TsList) (i pp nn : Nat) (hr : (getE s i).removed = false)
    (hp : (getE s i).prev = some pp) (hn : (getE s i).next = some nn) :
    Remove s i =
      { head := s.head, tail := s.tail, size := s.size - 1,
        arena := ((s.arena.set i { getE s i with removed := true }).set pp
            { (s.arena.set i { getE s i with removed := true }).getD pp default with
                next := some nn }).set nn
          { ((s.arena.set i { getE s i with removed := true }).set pp
              { (s.arena.set i { getE s i with removed := true }).getD pp default with
                  next := some nn }).getD nn default with
              prev := some pp } } := by
  rw [Remove]
  simp only [hr, Bool.false_eq_true, if_false, hp, hn]
  rfl

theorem append_eq_empty (s : TsList) (v : Nat) (hh : s.head = none) :
    (Append s v).1 =
      { head := some s.arena.length, tail := some s.arena.length, size := s.size,
        arena := s.arena ++
          [{ value := v, remove := false, removed := false, next := none, prev := none }] } := by
  rw [Append]
  simp only [hh, if_pos]

theorem set_append_last {α : Type} (l : List α) (e x : α) (j : Nat) (h : j = l.length) :
    (l ++ [e]).set j x = l ++ [x] := by
  subst h
  exact set_append_len l e x

theorem getD_append_last {α : Type} [Inhabited α] (l : List α) (e : α) (j : Nat)
    (h : j = l.length) : (l ++ [e]).getD j default = e := by
  subst h
  exact getD_append_len l e

theorem append_eq_cons (s : TsList) (v : Nat) (t : Nat) (hh : ¬s.head = none)
    (ht : s.tail = some t) (hb : t < s.arena.length) :
    (Append s v).1 =
      { head := s.head, tail := some s.arena.length, size := s.size + 1,
        arena := s.arena.set t { getE s t with next := some s.arena.length } ++
          [{ value := v, remove := false, removed := false, next := none,
             prev := some t }] } := by
  rw [Append, if_neg hh, ht]
  simp only [getE, arena_setE]
  congr 1
  rw [getD_append_lt s.arena _ t hb]
  rw [set_append_left _ _ _ _ hb]
  rw [set_append_last _ _ _ _ (by simp)]
  rw [getD_append_last _ _ _ (by simp)]

/-! ## Chain segment lemmas -/

theorem seg_congr (s s2 : TsList) (hlen : s.arena.length ≤ s2.arena.length) :
    ∀ (l : List Nat) (c p c' p' : Option Nat),
      (∀ j ∈ l, (getE s2 j).prev = (getE s j).prev ∧ (getE s2 j).next = (getE s j).next ∧
        (getE s2 j).removed = (getE s j).removed) →
      seg s l c p c' p' → seg s2 l c p c' p' := by
  intro l
  induction l with
  | nil => intro c p c' p' _ hseg; exact hseg
  | cons a rest ih =>
    intro c p c' p' hagree hseg
    obtain ⟨hc, hb, hp, hr, hrest⟩ := hseg
    have ha := hagree a (List.mem_cons_self a rest)
    refine ⟨hc, lt_of_lt_of_le hb hlen, by rw [ha.1]; exact hp, by rw [ha.2.2]; exact hr, ?_⟩
    rw [ha.2.1]
    exact ih _ _ _ _ (fun j hj => hagree j (List.mem_cons_of_mem a hj)) hrest

theorem seg_append_elim (s : TsList) :
    ∀ (A B : List Nat) (c p c' p' : Option Nat), seg s (A ++ B) c p c' p' →
      ∃ cm pm, seg s A c p cm pm ∧ seg s B cm pm c' p' := by
  intro A
  induction A with
  | nil => intro B c p c' p' hseg; exact ⟨c, p, ⟨rfl, rfl⟩, hseg⟩
  | cons a rest ih =>
    intro B c p c' p' hseg
    obtain ⟨hc, hb, hp, hr, hrest⟩ := hseg
    obtain ⟨cm, pm, h1, h2⟩ := ih B _ _ _ _ hrest
    exact ⟨cm, pm, ⟨hc, hb, hp, hr, h1⟩, h2⟩

theorem seg_append_intro (s : TsList) :
    ∀ (A B : List Nat) (c p cm pm c' p' : Option Nat),
      seg s A c p cm pm → seg s B cm pm c' p' → seg s (A ++ B) c p c' p' := by
  intro A
  induction A with
  | nil =>
    intro B c p cm pm c' p' h1 h2
    obtain ⟨hc, hp⟩ := h1
    subst hc; subst hp
    exact h2
  | cons a rest ih =>
    intro B c p cm pm c' p' h1 h2
    obtain ⟨hc, hb, hp, hr, hrest⟩ := h1
    exact ⟨hc, hb, hp, hr, ih B _ _ _ _ _ _ hrest h2⟩

theorem seg_elements_lt (s : TsList) :
    ∀ (l : List Nat) (c p c' p' : Option Nat), seg s l c p c' p' →
      ∀ j ∈ l, j < s.arena.length := by
  intro l
  induction l with
  | nil => intro c p c' p' _ j hj; cases hj
  | cons a rest ih =>
    intro c p c' p' hseg j hj
    obtain ⟨-, hb, -, -, hrest⟩ := hseg
    rcases List.mem_cons.mp hj with rfl | hj2
    · exact hb
    · exact ih _ _ _ _ hrest j hj2

theorem seg_end_some (s : TsList) :
    ∀ (l : List Nat), l ≠ [] → ∀ (c p c' p' : Option Nat), seg s l c p c' p' →
      ∃ t, p' = some t := by
  intro l
  induction l with
  | nil => intro h; exact absurd rfl h
  | cons a rest ih =>
    intro _ c p c' p' hseg
    obtain ⟨-, -, -, -, hrest⟩ := hseg
    rcases rest with _ | ⟨b, r⟩
    · obtain ⟨-, hp⟩ := hrest
      exact ⟨a, hp⟩
    · exact ih (by simp) _ _ _ _ hrest

/-! ## Well-formedness preservation -/

theorem wf_new : WF New :=
  ⟨[], ⟨rfl, rfl⟩, List.nodup_nil, fun i hi => absurd hi (by simp [New])⟩

theorem wf_removeMarked (s : TsList) (h : WF s) : WF (RemoveMarked s) := by
  rw [removeMarked_eq_self]
  exact h

theorem getE_removeMark_fields (s : TsList) (i j : Nat) :
    (getE (RemoveMark s i) j).prev = (getE s j).prev ∧
      (getE (RemoveMark s i) j).next = (getE s j).next ∧
      (getE (RemoveMark s i) j).removed = (getE s j).removed := by
  by_cases hij : i = j
  · subst hij
    by_cases h : i < s.arena.length
    · rw [RemoveMark, getE_setE_self s i _ h]
      exact ⟨rfl, rfl, rfl⟩
    · rw [RemoveMark, setE_oob s i _ (le_of_not_lt h)]
      exact ⟨rfl, rfl, rfl⟩
  · rw [RemoveMark, getE_setE_ne s i j _ hij]
    exact ⟨rfl, rfl, rfl⟩

theorem wf_removeMark (s : TsList) (i : Nat) (h : WF s) : WF (RemoveMark s i) := by
  obtain ⟨l, hseg, hnd, hcomp⟩ := h
  refine ⟨l, ?_, hnd, ?_⟩
  · exact seg_congr s (RemoveMark s i) (le_of_eq (length_setE s i _).symm) l _ _ _ _
      (fun j _ => getE_removeMark_fields s i j) hseg
  · intro j hj hrem
    rw [RemoveMark, length_setE] at hj
    rw [(getE_removeMark_fields s i j).2.2] at hrem
    exact hcomp j hj hrem

theorem wf_append (s : TsList) (v : Nat) (h : WF s) : WF (Append s v).1 := by
  obtain ⟨l, hseg, hnd, hcomp⟩ := h
  by_cases hh : s.head = none
  · have hl : l = [] := by
      cases l with
      | nil => rfl
      | cons a rest =>
        have := hseg.1
        rw [hh] at this
        cases this
    subst hl
    obtain ⟨-, htail⟩ := hseg
    rw [append_eq_empty s v hh]
    refine ⟨[s.arena.length], ⟨rfl, by simp, ?_, ?_, ?_, ?_⟩, List.nodup_singleton _, ?_⟩
    · rw [getE_mk, getD_append_len]
    · rw [getE_mk, getD_append_len]
    · rw [getE_mk, getD_append_len]
    · rfl
    · intro j hj hrem
      rw [getE_mk] at hrem
      simp only [List.length_append, List.length_singleton] at hj
      rcases Nat.lt_succ_iff_lt_or_eq.mp hj with hlt | rfl
      · rw [getD_append_lt _ _ _ hlt] at hrem
        exact absurd (hcomp j hlt hrem) (List.not_mem_nil j)
      · exact List.mem_singleton_self _
  · have hlne : l ≠ [] := by
      intro he
      subst he
      exact hh hseg.1.symm
    rcases List.eq_nil_or_concat l with rfl | ⟨A2, b, rfl⟩
    · exact absurd rfl hlne
    · rw [List.concat_eq_append] at hseg hnd hcomp
      obtain ⟨cm, pm, hA2, hb⟩ := seg_append_elim s A2 [b] _ _ _ _ hseg
      obtain ⟨hcm, hbb, hpb, hrb, hnb, htl⟩ := hb
      rw [append_eq_cons s v b hh htl hbb]
      have hlenN : (s.arena.set b { getE s b with next := some s.arena.length } ++
          [({ value := v, remove := false, removed := false, next := none,
              prev := some b } : Element)]).length = s.arena.length + 1 := by
        simp
      have hgb : (s.arena.set b { getE s b with next := some s.arena.length } ++
          [({ value := v, remove := false, removed := false, next := none,
              prev := some b } : Element)]).getD b default =
          { getE s b with next := some s.arena.length } := by
        rw [getD_append_lt _ _ _ (by simpa using hbb), getD_set_eq]
        simp [getE, hbb]
      have hgL : (s.arena.set b { getE s b with next := some s.arena.length } ++
          [({ value := v, remove := false, removed := false, next := none,
              prev := some b } : Element)]).getD s.arena.length default =
          { value := v, remove := false, removed := false, next := none,
            prev := some b } := by
        exact getD_append_last _ _ _ (by simp)
      have hgother : ∀ j, j ≠ b → j < s.arena.length →
          (s.arena.set b { getE s b with next := some s.arena.length } ++
            [({ value := v, remove := false, removed := false, next := none,
                prev := some b } : Element)]).getD j default = getE s j := by
        intro j hjb hjl
        rw [getD_append_lt _ _ _ (by simpa using hjl), getD_set_eq]
        simp [getE, Ne.symm hjb]
      refine ⟨(A2 ++ [b]) ++ [s.arena.length], ?_, ?_, ?_⟩
      · refine seg_append_intro _ (A2 ++ [b]) [s.arena.length] _ _ (some s.arena.length)
          (some b) _ _ ?_ ?_
        · refine seg_append_intro _ A2 [b] _ _ cm pm _ _ ?_ ?_
          · refine seg_congr s _ (by rw [hlenN]; exact Nat.le_succ _) A2 _ _ _ _ ?_ hA2
            intro j hj
            have hjb : j ≠ b := fun he => (List.disjoint_of_nodup_append hnd) hj
              (he ▸ List.mem_singleton_self b)
            have hjl : j < s.arena.length := seg_elements_lt s A2 _ _ _ _ hA2 j hj
            rw [getE_mk, hgother j hjb hjl]
            exact ⟨rfl, rfl, rfl⟩
          · refine ⟨hcm, ?_, ?_, ?_, ?_, rfl⟩
            · rw [hlenN]; exact Nat.lt_succ_of_lt hbb
            · rw [getE_mk, hgb]; exact hpb
            · rw [getE_mk, hgb]; exact hrb
            · rw [getE_mk, hgb]
        · refine ⟨rfl, ?_, ?_, ?_, ?_, rfl⟩
          · rw [hlenN]; exact Nat.lt_succ_self _
          · rw [getE_mk, hgL]
          · rw [getE_mk, hgL]
          · rw [getE_mk, hgL]
      · rw [List.nodup_append]
        refine ⟨hnd, List.nodup_singleton _, ?_⟩
        intro j hj hj2
        rw [List.mem_singleton] at hj2
        subst hj2
        exact absurd (seg_elements_lt s _ _ _ _ _ hseg _ hj) (lt_irrefl _)
      · intro j hj hrem
        rw [getE_mk] at hrem
        rw [hlenN] at hj
        rcases Nat.lt_succ_iff_lt_or_eq.mp hj with hlt | rfl
        · by_cases hjb : j = b
          · subst hjb
            rw [hgb] at hrem
            exact List.mem_append_left _ (hcomp j hlt hrem)
          · rw [hgother j hjb hlt] at hrem
            exact List.mem_append_left _ (hcomp j hlt hrem)
        · exact List.mem_append_right _ (List.mem_singleton_self _)

theorem wf_remove (s : TsList) (i : Nat) (hi : i < s.arena.length) (h : WF s) :
    WF (Remove s i) := by
  obtain ⟨l, hseg, hnd, hcomp⟩ := h
  by_cases hr : (getE s i).removed = true
  · rw [remove_of_removed s i hr]
    exact ⟨l, hseg, hnd, hcomp⟩
  · have hrf : (getE s i).removed = false := by simpa using hr
    have hmem : i ∈ l := hcomp i hi hrf
    obtain ⟨A, B, rfl⟩ := List.append_of_mem hmem
    obtain ⟨cm, pm, hA, hIB⟩ := seg_append_elim s A (i :: B) _ _ _ _ hseg
    obtain ⟨hcm, hbi, hpi, hri, hB⟩ := hIB
    have hiA : i ∉ A := fun hx =>
      (List.disjoint_of_nodup_append hnd) hx (List.mem_cons_self i B)
    have hndA : A.Nodup := hnd.of_append_left
    have hndIB : (i :: B).Nodup := hnd.of_append_right
    have hiB : i ∉ B := (List.nodup_cons.mp hndIB).1
    have hndB : B.Nodup := (List.nodup_cons.mp hndIB).2
    rcases List.eq_nil_or_concat A with rfl | ⟨A2, a, rfl⟩
    · obtain ⟨hch, hpn⟩ := hA
      rcases B with _ | ⟨b, B2⟩
      · -- sole element
        obtain ⟨hnn, htl⟩ := hB
        have hRem := remove_eq_sole s i hrf (hpi.trans hpn) hnn.symm
        have hheadN : (Remove s i).head = none := by rw [hRem]
        have htailN : (Remove s i).tail = none := by rw [hRem]
        have hlenN : (Remove s i).arena.length = s.arena.length := by
          rw [hRem]; simp
        have hNi : getE (Remove s i) i = { getE s i with removed := true } := by
          rw [hRem]; simp only [getE]
          rw [getD_set_eq, if_pos ⟨rfl, hi⟩]
        have hNother : ∀ j, j ≠ i → getE (Remove s i) j = getE s j := by
          intro j hji
          rw [hRem]; simp only [getE]
          rw [getD_set_eq, if_neg (fun hand => hji hand.1.symm)]
        refine ⟨[], ⟨hheadN.symm, htailN⟩, List.nodup_nil, ?_⟩
        intro j hj hrem
        rw [hlenN] at hj
        by_cases hji : j = i
        · subst hji
          rw [hNi] at hrem
          simp at hrem
        · rw [hNother j hji] at hrem
          have hjm := hcomp j hj hrem
          simp only [List.nil_append, List.mem_singleton] at hjm
          exact absurd hjm hji
      · -- head removal
        obtain ⟨hnv, hbb, hpb, hrb, hB2⟩ := hB
        have hbi2 : b ≠ i := fun he => hiB (he ▸ List.mem_cons_self b B2)
        have hRem := remove_eq_head s i b hrf (hpi.trans hpn) hnv
        have hheadN : (Remove s i).head = some b := by rw [hRem]
        have htailN : (Remove s i).tail = s.tail := by rw [hRem]
        have hlenN : (Remove s i).arena.length = s.arena.length := by
          rw [hRem]; simp
        have hNb : getE (Remove s i) b = { getE s b with prev := none } := by
          rw [hRem]; simp only [getE]
          rw [getD_set_eq, if_pos ⟨rfl, by simpa using hbb⟩]
          rw [getD_set_eq, if_neg (fun hand => hbi2 hand.1.symm)]
        have hNi : getE (Remove s i) i = { getE s i with removed := true } := by
          rw [hRem]; simp only [getE]
          rw [getD_set_eq, if_neg (fun hand => hbi2 hand.1)]
          rw [getD_set_eq, if_pos ⟨rfl, hi⟩]
        have hNother : ∀ j, j ≠ i → j ≠ b → getE (Remove s i) j = getE s j := by
          intro j hji hjb
          rw [hRem]; simp only [getE]
          rw [getD_set_eq, if_neg (fun hand => hjb hand.1.symm)]
          rw [getD_set_eq, if_neg (fun hand => hji hand.1.symm)]
        refine ⟨b :: B2, ⟨hheadN, ?_, ?_, ?_, ?_⟩, hndB, ?_⟩
        · rw [hlenN]; exact hbb
        · rw [hNb]
        · rw [hNb]; exact hrb
        · rw [hNb, htailN]
          exact seg_congr s _ (le_of_eq hlenN.symm) B2 _ _ _ _
            (fun j hj => by
              have hjb : j ≠ b := fun he => (List.nodup_cons.mp hndB).1 (he ▸ hj)
              have hji : j ≠ i := fun he => hiB (he ▸ List.mem_cons_of_mem b hj)
              rw [hNother j hji hjb]
              exact ⟨rfl, rfl, rfl⟩) hB2
        · intro j hj hrem
          rw [hlenN] at hj
          by_cases hji : j = i
          · subst hji
            rw [hNi] at hrem
            simp at hrem
          · by_cases hjb : j = b
            · subst hjb
              exact List.mem_cons_self j B2
            · rw [hNother j hji hjb] at hrem
              have hjm := hcomp j hj hrem
              rw [List.nil_append, List.mem_cons] at hjm
              exact hjm.resolve_left hji
    · -- A = A2 ++ [a]
      rw [List.concat_eq_append] at hA hiA hndA hnd hcomp
      obtain ⟨cm2, pm2, hA2, ha⟩ := seg_append_elim s A2 [a] _ _ _ _ hA
      obtain ⟨hcm2, hba, hpa, hra, hcma, hpma⟩ := ha
      have hai : a ≠ i := fun he =>
        hiA (he ▸ List.mem_append_right A2 (List.mem_singleton_self a))
      have haA2 : a ∉ A2 := fun hx =>
        (List.disjoint_of_nodup_append hndA) hx (List.mem_singleton_self a)
      have hpva : (getE s i).prev = some a := by rw [hpi, hpma]
      rcases B with _ | ⟨b, B2⟩
      · -- tail removal
        obtain ⟨hnn, htl⟩ := hB
        have hRem := remove_eq_tail s i a hrf hpva hnn.symm
        have hheadN : (Remove s i).head = s.head := by rw [hRem]
        have htailN : (Remove s i).tail = some a := by rw [hRem]
        have hlenN : (Remove s i).arena.length = s.arena.length := by
          rw [hRem]; simp
        have hNa : getE (Remove s i) a = { getE s a with next := none } := by
          rw [hRem]; simp only [getE]
          rw [getD_set_eq, if_pos ⟨rfl, by simpa using hba⟩]
          rw [getD_set_eq, if_neg (fun hand => hai hand.1.symm)]
        have hNi : getE (Remove s i) i = { getE s i with removed := true } := by
          rw [hRem]; simp only [getE]
          rw [getD_set_eq, if_neg (fun hand => hai hand.1)]
          rw [getD_set_eq, if_pos ⟨rfl, hi⟩]
        have hNother : ∀ j, j ≠ i → j ≠ a → getE (Remove s i) j = getE s j := by
          intro j hji hja
          rw [hRem]; simp only [getE]
          rw [getD_set_eq, if_neg (fun hand => hja hand.1.symm)]
          rw [getD_set_eq, if_neg (fun hand => hji hand.1.symm)]
        refine ⟨A2 ++ [a], ?_, hndA, ?_⟩
        · rw [hheadN, htailN]
          refine seg_append_intro _ A2 [a] _ _ cm2 pm2 _ _ ?_ ?_
          · exact seg_congr s _ (le_of_eq hlenN.symm) A2 _ _ _ _
              (fun j hj => by
                have hja : j ≠ a := fun he => haA2 (he ▸ hj)
                have hji : j ≠ i := fun he => hiA (he ▸ List.mem_append_left [a] hj)
                rw [hNother j hji hja]
                exact ⟨rfl, rfl, rfl⟩) hA2
          · refine ⟨hcm2, ?_, ?_, ?_, ?_, rfl⟩
            · rw [hlenN]; exact hba
            · rw [hNa]; exact hpa
            · rw [hNa]; exact hra
            · rw [hNa]
        · intro j hj hrem
          rw [hlenN] at hj
          by_cases hji : j = i
          · subst hji
            rw [hNi] at hrem
            simp at hrem
          · by_cases hja : j = a
            · subst hja
              exact List.mem_append_right A2 (List.mem_singleton_self j)
            · rw [hNother j hji hja] at hrem
              have hjm := hcomp j hj hrem
              rcases List.mem_append.mp hjm with hjm2 | hjm2
              · exact hjm2
              · rw [List.mem_singleton] at hjm2
                exact absurd hjm2 hji
      · -- internal removal
        obtain ⟨hnv, hbb, hpb, hrb, hB2⟩ := hB
        have hbi2 : b ≠ i := fun he => hiB (he ▸ List.mem_cons_self b B2)
        have hab : a ≠ b := fun he =>
          (List.disjoint_of_nodup_append hnd)
            (List.mem_append_right A2 (List.mem_singleton_self a))
            (by rw [he]; exact List.mem_cons_of_mem i (List.mem_cons_self b B2))
        have hRem := remove_eq_internal s i a b hrf hpva hnv
        have hheadN : (Remove s i).head = s.head := by rw [hRem]
        have htailN : (Remove s i).tail = s.tail := by rw [hRem]
        have hlenN : (Remove s i).arena.length = s.arena.length := by
          rw [hRem]; simp
        have hNa : getE (Remove s i) a = { getE s a with next := some b } := by
          rw [hRem]; simp only [getE]
          rw [getD_set_eq, if_neg (fun hand => hab hand.1.symm)]
          rw [getD_set_eq, if_pos ⟨rfl, by simpa using hba⟩]
          rw [getD_set_eq, if_neg (fun hand => hai hand.1.symm)]
        have hNb : getE (Remove s i) b = { getE s b with prev := some a } := by
          rw [hRem]; simp only [getE]
          rw [getD_set_eq, if_pos ⟨rfl, by simpa using hbb⟩]
          rw [getD_set_eq, if_neg (fun hand => hab hand.1)]
          rw [getD_set_eq, if_neg (fun hand => hbi2 hand.1.symm)]
        have hNi : getE (Remove s i) i = { getE s i with removed := true } := by
          rw [hRem]; simp only [getE]
          rw [getD_set_eq, if_neg (fun hand => hbi2 hand.1)]
          rw [getD_set_eq, if_neg (fun hand => hai hand.1)]
          rw [getD_set_eq, if_pos ⟨rfl, hi⟩]
        have hNother : ∀ j, j ≠ i → j ≠ a → j ≠ b → getE (Remove s i) j = getE s j := by
          intro j hji hja hjb
          rw [hRem]; simp only [getE]
          rw [getD_set_eq, if_neg (fun hand => hjb hand.1.symm)]
          rw [getD_set_eq, if_neg (fun hand => hja hand.1.symm)]
          rw [getD_set_eq, if_neg (fun hand => hji hand.1.symm)]
        refine ⟨(A2 ++ [a]) ++ (b :: B2), ?_, ?_, ?_⟩
        · rw [hheadN, htailN]
          refine seg_append_intro _ (A2 ++ [a]) (b :: B2) _ _ (some b) (some a) _ _ ?_ ?_
          · refine seg_append_intro _ A2 [a] _ _ cm2 pm2 _ _ ?_ ?_
            · exact seg_congr s _ (le_of_eq hlenN.symm) A2 _ _ _ _
                (fun j hj => by
                  have hja : j ≠ a := fun he => haA2 (he ▸ hj)
                  have hji : j ≠ i := fun he => hiA (he ▸ List.mem_append_left [a] hj)
                  have hjb : j ≠ b := fun he =>
                    (List.disjoint_of_nodup_append hnd) (List.mem_append_left [a] hj)
                      (by rw [he]; exact List.mem_cons_of_mem i (List.mem_cons_self b B2))
                  rw [hNother j hji hja hjb]
                  exact ⟨rfl, rfl, rfl⟩) hA2
            · refine ⟨hcm2, ?_, ?_, ?_, ?_, rfl⟩
              · rw [hlenN]; exact hba
              · rw [hNa]; exact hpa
              · rw [hNa]; exact hra
              · rw [hNa]
          · refine ⟨rfl, ?_, ?_, ?_, ?_⟩
            · rw [hlenN]; exact hbb
            · rw [hNb]
            · rw [hNb]; exact hrb
            · rw [hNb]
              exact seg_congr s _ (le_of_eq hlenN.symm) B2 _ _ _ _
                (fun j hj => by
                  have hjb : j ≠ b := fun he => (List.nodup_cons.mp hndB).1 (he ▸ hj)
                  have hji : j ≠ i := fun he => hiB (he ▸ List.mem_cons_of_mem b hj)
                  have hja : j ≠ a := fun he =>
                    (List.disjoint_of_nodup_append hnd)
                      (by rw [he]; exact List.mem_append_right A2 (List.mem_singleton_self a))
                      (List.mem_cons_of_mem i (List.mem_cons_of_mem b hj))
                  rw [hNother j hji hja hjb]
                  exact ⟨rfl, rfl, rfl⟩) hB2
        · exact (List.Sublist.append (List.Sublist.refl (A2 ++ [a]))
            (List.sublist_cons_self i (b :: B2))).nodup hnd
        · intro j hj hrem
          rw [hlenN] at hj
          by_cases hji : j = i
          · subst hji
            rw [hNi] at hrem
            simp at hrem
          · by_cases hja : j = a
            · subst hja
              exact List.mem_append_left _
                (List.mem_append_right A2 (List.mem_singleton_self j))
            · by_cases hjb : j = b
              · subst hjb
                exact List.mem_append_right _ (List.mem_cons_self j B2)
              · rw [hNother j hji hja hjb] at hrem
                have hjm := hcomp j hj hrem
                rcases List.mem_append.mp hjm with hjm2 | hjm2
                · exact List.mem_append_left _ hjm2
                · rw [List.mem_cons] at hjm2
                  exact List.mem_append_right _ (hjm2.resolve_left hji)

theorem wf_head_iff_tail (s : TsList) (h : WF s) : (s.head = none ↔ s.tail = none) := by
  obtain ⟨l, hseg, -, -⟩ := h
  cases l with
  | nil =>
    obtain ⟨h1, h2⟩ := hseg
    rw [← h1, h2]
  | cons a rest =>
    have hc : s.head = some a := hseg.1
    obtain ⟨t, ht⟩ := seg_end_some s (a :: rest) (by simp) _ _ _ _ hseg
    constructor
    · intro hx
      rw [hc] at hx
      cases hx
    · intro hx
      rw [ht] at hx
      cases hx

theorem reachable_wf (s : TsList) (h : Reachable s) : WF s := by
  induction h with
  | new => exact wf_new
  | append s2 v _ ih => exact wf_append s2 v ih
  | removeMark s2 i _ _ ih => exact wf_removeMark s2 i ih
  | remove s2 i _ hi ih => exact wf_remove s2 i hi ih
  | removeMarked s2 _ ih => exact wf_removeMarked s2 ih

/-- C7: the invariant `head is absent iff tail is absent` holds for the
freshly constructed list and is preserved by every operation: it holds in
every state reachable from New by Append, RemoveMark, Remove (on genuine
handles, i.e. arena indices handed out by Append) and RemoveMarked. -/
theorem C7_head_iff_tail :
    (New.head = none ↔ New.tail = none) ∧
      ∀ s, Reachable s → (s.head = none ↔ s.tail = none) :=
  ⟨Iff.rfl, fun s h => wf_head_iff_tail s (reachable_wf s h)⟩

/-- C7 witness: the invariant in a concrete reachable state, obtained by one
Append followed by one Remove. -/
theorem C7_head_iff_tail_witness :
    ((Remove (Append New 3).1 0).head = none ↔ (Remove (Append New 3).1 0).tail = none) :=
  C7_head_iff_tail.2 _
    (Reachable.remove (Append New 3).1 0 (Reachable.append New 3 Reachable.new) (by decide))

end Tslist
